import Mathlib

/-!
Verification of the document-preprocessing pipeline and its progress
notification system (a shallow embedding of the Python sources under
`claude_files/`): the `LlamaChunker`, `PatentEmbedder`, `DomainClassifier`,
the WebSocket `ConnectionManager`, and the `DocumentPreprocessingPipeline`
orchestrator.

Modelling conventions:
  * Python strings are Lean `String`s; the handful of string operations the
    code uses (`str.lower`, `str.split`, the substring test `in`,
    `str.strip`, `str.endswith`) are defined here over the underlying
    character list so they evaluate inside the kernel.
  * Python dicts with string keys are ordered association lists
    (`Dict` below); `{**a, **b}` is `dictMerge a b`, which updates keys of
    `a` in place and appends fresh keys of `b`, matching Python's ordering
    and lookup semantics.
  * `int(words * 1.33)` is modelled as `words * 133 / 100` on `Nat`: for
    every word count below about 10^13 the double-precision product
    `words * 1.33` truncates to exactly `⌊words * 133 / 100⌋`, since the
    binary double nearest to 1.33 exceeds 1.33 by less than 10^-16.
  * External collaborators (the semantic splitter, the embedding model, the
    database commits) enter as explicit parameters; fallible calls are
    `Except String` values, mirroring the spec's error taxonomy
    (NotFound / ExtractionFailure / EmbeddingFailure / StoreFailure).
-/

/-! ## String operations (Python semantics over character lists) -/

/-- Python `str.lower()` restricted to the alphabetic case map. -/
def strLower (s : String) : String := ⟨s.data.map Char.toLower⟩

/-- Python's substring test `needle in hay`. -/
def strContains (hay needle : String) : Bool :=
  hay.data.tails.any (fun suf => needle.data.isPrefixOf suf)

/-- Splitter for Python `str.split()` (no argument): split on whitespace
runs and drop empty pieces.  `acc` holds the completed words in reverse,
`cur` the current word in reverse. -/
def splitWsAux : List Char → List (List Char) → List Char → List String
  | [], acc, cur =>
      ((cur.reverse :: acc).reverse).filterMap
        (fun w => if w = [] then none else some ⟨w⟩)
  | c :: rest, acc, cur =>
      if c.isWhitespace then splitWsAux rest (cur.reverse :: acc) []
      else splitWsAux rest acc (c :: cur)

/-- Python `s.split()`: whitespace-separated words of `s`. -/
def strWords (s : String) : List String :=
  splitWsAux s.data [] []

/-- Python `'\n\n'.join(texts)`. -/
def joinBlank : List String → String
  | [] => ""
  | [t] => t
  | t :: rest => t ++ "\n\n" ++ joinBlank rest

/-- Python `word.strip(chars)`: drop characters of `chars` from both ends. -/
def strStrip (chars : List Char) (s : String) : String :=
  ⟨((s.data.dropWhile (chars.contains ·)).reverse.dropWhile (chars.contains ·)).reverse⟩

/-- Python `word.endswith('.')`. -/
def endsWithDot (s : String) : Bool := s.data.getLast? == some '.'

/-! ## Python dicts as ordered association lists -/

/-- The values stored in the metadata dicts the pipeline builds. -/
inductive MetaValue where
  | vStr (s : String)
  | vNat (n : Nat)
  | vBool (b : Bool)
  | vStrList (l : List String)
  | vDict (m : List (String × MetaValue))

/-- A Python dict with string keys, in insertion order. -/
abbrev Dict := List (String × MetaValue)

/-- Dict lookup: the value at the first entry whose key matches. -/
def dictLookup (m : Dict) (k : String) : Option MetaValue :=
  (m.find? (fun p => p.1 == k)).map (·.2)

/-- Setting one key: update the first entry with that key in place, or
append a fresh entry — Python dict assignment. -/
def dictInsert : Dict → String × MetaValue → Dict
  | [], kv => [kv]
  | p :: rest, kv => if p.1 == kv.1 then kv :: rest else p :: dictInsert rest kv

/-- Python `{**a, **b}`. -/
def dictMerge (a b : Dict) : Dict := b.foldl dictInsert a

/-! ## LlamaChunker (`preprocessing/chunkers/llama_chunker.py`) -/

/-- The `Chunk` dataclass. -/
structure Chunk where
  text : String
  chunk_index : Nat
  section_type : String
  metadata : Dict
  token_count : Nat

/-- A node returned by the external `SentenceSplitter` (its text and its
generated `node_id`). -/
structure SplitNode where
  text : String
  node_id : String

/-- A table record produced by the extractor: a dict with keys `text` and
`metadata`. -/
structure TableRec where
  text : String
  metadata : Dict

namespace LlamaChunker

/-- `LlamaChunker._estimate_tokens`: `int(words * 1.33)` (see the file
comment for why the float truncation is `words * 133 / 100` on `Nat`). -/
def estimate_tokens (text : String) : Nat :=
  (strWords text).length * 133 / 100

/-- The chunks of the sections from one section on, starting the global
chunk counter at `k` — the loop of `chunk_sections` with
`chunk_global_index = k`. -/
def chunk_sections_go (split : String → List SplitNode)
    (base_metadata : Dict) : List (String × List String) → Nat → List Chunk
  | [], _ => []
  | (section_name, section_texts) :: rest, k =>
      if section_texts = [] then chunk_sections_go split base_metadata rest k
      else
        let section_text := joinBlank section_texts
        let nodes := split section_text
        let cs := nodes.enum.map (fun ln =>
          ({ text := ln.2.text,
             chunk_index := k + ln.1,
             section_type := section_name,
             metadata := dictMerge base_metadata
               [("section_type", .vStr section_name),
                ("node_id", .vStr ln.2.node_id),
                ("local_chunk_index", .vNat ln.1),
                ("total_chunks_in_section", .vNat nodes.length)],
             token_count := estimate_tokens ln.2.text } : Chunk))
        cs ++ chunk_sections_go split base_metadata rest (k + nodes.length)

/-- `LlamaChunker.chunk_sections`, with the external splitter passed in:
iterate the sections in order, skip empty ones, split the joined section
text, and number the resulting chunks with one global counter. -/
def chunk_sections (split : String → List SplitNode)
    (sections : List (String × List String)) (base_metadata : Dict) : List Chunk :=
  chunk_sections_go split base_metadata sections 0

/-- `LlamaChunker.chunk_tables`: one chunk per table, with `chunk_index`
equal to the table's own position (a counter restarting at 0). -/
def chunk_tables (tables : List TableRec) (base_metadata : Dict) : List Chunk :=
  tables.enum.map (fun it =>
    { text := it.2.text,
      chunk_index := it.1,
      section_type := "table",
      metadata := dictMerge base_metadata
        [("section_type", .vStr "table"),
         ("table_index", .vNat it.1),
         ("table_metadata", .vDict it.2.metadata)],
      token_count := estimate_tokens it.2.text })

end LlamaChunker

/-! ## DomainClassifier (`preprocessing/classifiers/domain_classifier.py`) -/

namespace DomainClassifier

/-- The `TECH_DOMAINS` keyword table, in its Python insertion order. -/
def TECH_DOMAINS : List (String × List String) :=
  [("software",
    ["algorithm", "software", "computer", "processor", "application",
     "program", "code", "data", "server", "database", "interface",
     "api", "network", "cloud", "machine learning", "artificial intelligence"]),
   ("mechanical",
    ["mechanism", "device", "apparatus", "structure", "assembly",
     "component", "gear", "motor", "bearing", "valve", "actuator",
     "mechanical", "engine", "machine", "tool"]),
   ("electrical",
    ["circuit", "electrical", "electronic", "signal", "voltage",
     "current", "power", "transistor", "semiconductor", "microprocessor",
     "integrated circuit", "pcb", "conductor", "capacitor", "resistor"]),
   ("chemical",
    ["compound", "composition", "reaction", "molecule", "chemical",
     "synthesis", "catalyst", "polymer", "solvent", "reagent",
     "formulation", "mixture", "solution", "substance"]),
   ("biotechnology",
    ["protein", "gene", "cell", "biological", "organism", "dna",
     "rna", "enzyme", "antibody", "bacteria", "virus", "genetic",
     "biotechnology", "genome", "peptide"]),
   ("medical",
    ["treatment", "diagnosis", "therapeutic", "patient", "medical",
     "clinical", "disease", "therapy", "pharmaceutical", "drug",
     "medicine", "surgical", "healthcare", "diagnostic"]),
   ("telecommunications",
    ["wireless", "communication", "antenna", "frequency", "transmission",
     "receiver", "transmitter", "signal processing", "modulation",
     "bandwidth", "cellular", "5g", "radio"]),
   ("optics",
    ["optical", "laser", "light", "lens", "photon", "beam",
     "wavelength", "spectrum", "imaging", "camera", "display"])]

/-- `sum(1 for keyword in keywords if keyword in text_lower)`. -/
def match_count (text_lower : String) (keywords : List String) : Nat :=
  keywords.countP (fun keyword => strContains text_lower keyword)

/-- The `domain_scores` dict of `classify`: the domains whose keyword-match
count reaches `min_keywords`, with their counts, in table order. -/
def domain_scores (text_lower : String) (min_keywords : Nat) : List (String × Nat) :=
  TECH_DOMAINS.filterMap (fun dk =>
    let score := match_count text_lower dk.2
    if min_keywords ≤ score then some (dk.1, score) else none)

/-- `DomainClassifier.classify`: score every domain against the lowered
text, keep those at or above the threshold, sort by score descending
(Python's `sorted(..., reverse=True)` is a stable sort, so any stable
descending insertion gives the identical list — here `insertionSort`),
and fall back to `['general']` when nothing qualifies. -/
def classify (text : String) (min_keywords : Nat) : List String :=
  let text_lower := strLower text
  let sorted_domains :=
    (domain_scores text_lower min_keywords).insertionSort (fun a b => b.2 ≤ a.2)
  let domains := sorted_domains.map Prod.fst
  if domains = [] then ["general"] else domains

/-- The keyword-match score `classify` computes for a domain of the
table: the score of the `TECH_DOMAINS` entry with that name (0 for a name
not in the table).  Only used to state theorems about the ordering of
`classify`'s result. -/
def score_of (text_lower : String) (d : String) : Nat :=
  match TECH_DOMAINS.find? (fun p => p.1 == d) with
  | some p => match_count text_lower p.2
  | none => 0

/-- The characters `extract_technical_terms` strips from a word. -/
def strip_chars : List Char := ['.', ',', ';', ':', '!', '?', '(', ')']

/-- The loop of `extract_technical_terms`: walk the words with the
previous word at hand (`i > 0` means a previous word exists; a previous
word ending in `.` marks a likely sentence start, which is skipped). -/
def collect_terms : Option String → List String → List String
  | _, [] => []
  | prev, word :: rest =>
      let clean_word := strStrip strip_chars word
      let keep :=
        2 < clean_word.length &&
        ((clean_word.data.head?.map Char.isUpper).getD false) &&
        prev.isSome &&
        !((prev.map endsWithDot).getD false)
      if keep then clean_word :: collect_terms (some word) rest
      else collect_terms (some word) rest

/-- Python `list(dict.fromkeys(l))`: drop duplicates keeping each first
occurrence. -/
def dedup_keep_first : List String → List String → List String
  | _, [] => []
  | seen, x :: rest =>
      if x ∈ seen then dedup_keep_first seen rest
      else x :: dedup_keep_first (x :: seen) rest

/-- `DomainClassifier.extract_technical_terms`. -/
def extract_technical_terms (text : String) (max_terms : Nat) : List String :=
  let words := strWords text
  let technical_terms := collect_terms none words
  (dedup_keep_first [] technical_terms).take max_terms

/-- The `cpc_mapping` dict of `get_cpc_hints`. -/
def cpc_mapping : List (String × List String) :=
  [("software", ["G06F"]),
   ("mechanical", ["F16"]),
   ("electrical", ["H01", "H02"]),
   ("chemical", ["C07", "C08"]),
   ("biotechnology", ["C12"]),
   ("medical", ["A61"]),
   ("telecommunications", ["H04"]),
   ("optics", ["G02"])]

/-- `DomainClassifier.get_cpc_hints`: extend with the mapped classes of
every known domain, then `list(set(...))`.  Python's set iteration order
is unspecified, so the deduplication is modelled by `List.dedup`; all
claims about the result treat it as an unordered set. -/
def get_cpc_hints (domains : List String) : List String :=
  let cpc_hints := domains.foldl
    (fun acc domain =>
      match cpc_mapping.find? (fun p => p.1 == domain) with
      | some p => acc ++ p.2
      | none => acc)
    []
  cpc_hints.dedup

end DomainClassifier

/-! ## PatentEmbedder (`preprocessing/embedders/patent_embedder.py`) -/

namespace PatentEmbedder

/-- The loop of `_generate_batch`: `for i in range(0, len(texts),
batch_size)` sends `texts[i:i+batch_size]` to the model and concatenates
the returned vectors in order; an exception from any batch aborts the
whole call.  The loop advances at least one element per iteration when
`batch_size ≥ 1`, so `texts.length` iterations always suffice; the `fuel`
argument makes the recursion structural so applications evaluate by
`rfl`. -/
def generate_batch_go {Vec : Type} (model : List String → Except String (List Vec))
    (batch_size : Nat) : Nat → List String → Except String (List Vec)
  | _, [] => .ok []
  | 0, _ :: _ => .ok []
  | fuel + 1, t :: ts =>
      match model ((t :: ts).take batch_size) with
      | .error e => .error e
      | .ok batch_embeddings =>
          match generate_batch_go model batch_size fuel ((t :: ts).drop batch_size) with
          | .error e => .error e
          | .ok rest => .ok (batch_embeddings ++ rest)

/-- `PatentEmbedder._generate_batch`. -/
def generate_batch {Vec : Type} (model : List String → Except String (List Vec))
    (texts : List String) (batch_size : Nat) : Except String (List Vec) :=
  generate_batch_go model batch_size texts.length texts

/-- `PatentEmbedder.generate_embeddings`: empty input short-circuits to
`[]`; otherwise the batched loop runs (the thread-pool offloading changes
nothing about the value computed). -/
def generate_embeddings {Vec : Type} (model : List String → Except String (List Vec))
    (texts : List String) (batch_size : Nat) : Except String (List Vec) :=
  if texts = [] then .ok [] else generate_batch model texts batch_size

end PatentEmbedder

/-! ## ConnectionManager (`api/documents/websocket.py`) -/

/-- Connection handles are opaque; naturals stand in for them. -/
abbrev Conn := Nat

/-- The `ConnectionManager`'s only state: the `active_connections` dict
mapping a document id to its set of connections (a set of opaque handles,
modelled as a duplicate-free list in arbitrary order). -/
structure ConnectionManager where
  active_connections : List (String × List Conn)

namespace ConnectionManager

/-- The empty manager (`ConnectionManager.__init__`). -/
def empty : ConnectionManager := ⟨[]⟩

/-- `document_id in self.active_connections` plus the dict access. -/
def lookupConns (m : ConnectionManager) (document_id : String) : Option (List Conn) :=
  (m.active_connections.find? (fun p => p.1 == document_id)).map (·.2)

/-- Dict assignment `self.active_connections[document_id] = v`. -/
def setConns : List (String × List Conn) → String → List Conn → List (String × List Conn)
  | [], document_id, v => [(document_id, v)]
  | p :: rest, document_id, v =>
      if p.1 == document_id then (document_id, v) :: rest
      else p :: setConns rest document_id v

/-- `del self.active_connections[document_id]`. -/
def eraseConns (l : List (String × List Conn)) (document_id : String) :
    List (String × List Conn) :=
  l.filter (fun p => !(p.1 == document_id))

/-- `ConnectionManager.connect` (the network-level `accept()` has no
state effect here): ensure the document has an entry, then add the
connection to its set (idempotent, as set `add` is). -/
def connect (m : ConnectionManager) (websocket : Conn) (document_id : String) :
    ConnectionManager :=
  let m1 : ConnectionManager :=
    if lookupConns m document_id = none then ⟨setConns m.active_connections document_id []⟩
    else m
  match lookupConns m1 document_id with
  | some cs =>
      ⟨setConns m1.active_connections document_id
        (if websocket ∈ cs then cs else cs ++ [websocket])⟩
  | none => m1

/-- `ConnectionManager.disconnect`: discard the connection from the
document's set and delete the entry when the set becomes empty. -/
def disconnect (m : ConnectionManager) (websocket : Conn) (document_id : String) :
    ConnectionManager :=
  match lookupConns m document_id with
  | none => m
  | some cs =>
      let cs' := cs.filter (fun c => c ≠ websocket)
      if cs' = [] then ⟨eraseConns m.active_connections document_id⟩
      else ⟨setConns m.active_connections document_id cs'⟩

/-- `ConnectionManager.send_progress`, with the outcome of each
`connection.send_json` given by `sendOk`: iterate over a copy of the
document's set; a failing delivery is caught and answered with a
`disconnect` of that connection (never propagated).  Returns the final
state, the list of connections delivery was attempted to (the copy), and
the list of connections delivered to. -/
def send_progress (sendOk : Conn → Bool) (m : ConnectionManager) (document_id : String) :
    ConnectionManager × List Conn × List Conn :=
  match lookupConns m document_id with
  | none => (m, [], [])
  | some connections =>
      let r := connections.foldl
        (fun (acc : ConnectionManager × List Conn) c =>
          if sendOk c then (acc.1, acc.2 ++ [c])
          else (disconnect acc.1 c document_id, acc.2))
        (m, [])
      (r.1, connections, r.2)

end ConnectionManager

/-! ## ExtractedContent (`preprocessing/extractors/base.py`) -/

/-- The `ExtractedContent` dataclass (ordered sections, table records, the
full text used for classification, and the derived table flag). -/
structure ExtractedContent where
  sections : List (String × List String)
  tables : List TableRec
  full_text : String
  has_tables : Bool

/-! ## DocumentPreprocessingPipeline (`preprocessing/pipeline.py`) -/

namespace Pipeline

/-- The `ProcessingStage` enum. -/
inductive Stage where
  | extracting
  | classifying
  | chunking
  | embedding
  | storing
  | complete
  | failed
deriving DecidableEq

/-- One progress event, the `{'stage': ..., 'progress': ..., 'error': ...}`
dict `_update_progress` hands to the callback (the `if callback` guard only
decides whether anyone observes it; the emitted sequence is what is
modelled). -/
structure Event where
  stage : Stage
  progress : Nat
  error : Option String
deriving DecidableEq

/-- Whether an event is terminal (`complete` or `failed`). -/
def Event.isTerminal (e : Event) : Bool :=
  e.stage == Stage.complete || e.stage == Stage.failed

/-- The `Document` row fields the pipeline touches.  `processed_at` is a
wall-clock timestamp; only whether it was set matters here. -/
structure Document where
  id : String
  processing_status : String
  processing_error : Option String
  processed_at_set : Bool
  metadata : Dict

/-- A persisted `DocumentChunk` row (`importance_score` is the constant
float `1.0` in the source and is not modelled). -/
structure StoredChunk (Vec : Type) where
  document_id : String
  chunk_text : String
  chunk_index : Nat
  embedding : Vec
  section_type : String
  token_count : Nat
  metadata : Dict

/-- The committed database state: document rows and chunk rows.  A
SQLAlchemy `commit` is atomic — it either persists every pending change or
raises and persists none — so the model moves from one committed state to
the next only at the commit points of the source. -/
structure DbState (Vec : Type) where
  documents : List Document
  chunks : List (StoredChunk Vec)

/-- The external collaborators of one run, and the outcome of each
fallible call, mirroring the spec's error taxonomy: the two `db.commit()`
calls of the happy path (StoreFailure), the extractor
(ExtractionFailure), and the embedding model (EmbeddingFailure).  The
recovery commit inside the `except` block is taken to succeed. -/
structure PipelineEnv (Vec : Type) where
  commitProcessing : Except String Unit
  extractResult : Except String ExtractedContent
  split : String → List SplitNode
  model : List String → Except String (List Vec)
  commitStore : Except String Unit
  model_name : String
  dimension : Nat

/-- The success dict `process_document` returns (`'status': 'success'` is
carried by the `Except.ok` itself). -/
structure RunSuccess where
  document_id : String
  chunks_created : Nat
  domains : List String
  has_tables : Bool
deriving DecidableEq

/-- Everything one run produces: the emitted progress events in order, the
final committed database state, and the returned value or re-raised
error. -/
structure RunOutcome (Vec : Type) where
  events : List Event
  db : DbState Vec
  result : Except String RunSuccess

/-- `self.db.query(Document).filter(Document.id == document_id).first()`. -/
def queryDoc {Vec : Type} (db : DbState Vec) (document_id : String) : Option Document :=
  db.documents.find? (fun x => x.id == document_id)

/-- Committing a mutated document row: replace the row with that id. -/
def saveDoc {Vec : Type} (db : DbState Vec) (d : Document) : DbState Vec :=
  { db with documents := db.documents.map (fun x => if x.id == d.id then d else x) }

/-- The seven metadata keys the pipeline writes on completion. -/
def pipeline_metadata_keys : List String :=
  ["total_chunks", "technical_domains", "technical_terms", "cpc_hints",
   "has_tables", "embedding_model", "embedding_dimension"]

/-- The `except` block of `process_document`: re-query the document, mark
it failed with the error message and commit (when it exists), emit the
`failed` event with progress 0 and the same message, and re-raise. -/
def handleFailure {Vec : Type} (events : List Event) (db : DbState Vec)
    (document_id : String) (e : String) : RunOutcome Vec :=
  let db' := match queryDoc db document_id with
    | some document =>
        saveDoc db { document with processing_status := "failed", processing_error := some e }
    | none => db
  { events := events ++ [⟨Stage.failed, 0, some e⟩], db := db', result := .error e }

/-- The `try` block of `process_document`: the six stages in order, each
prefixed by its progress notification, with every fallible call threaded
through `Except`. -/
def run_try {Vec : Type} (env : PipelineEnv Vec) (document_id project_id : String)
    (is_primary : Bool) (db0 : DbState Vec) : RunOutcome Vec :=
  match queryDoc db0 document_id with
  | none => ⟨[], db0, .error ("Document " ++ document_id ++ " not found")⟩
  | some document =>
    let doc1 := { document with processing_status := "processing" }
    match env.commitProcessing with
    | .error e => ⟨[], db0, .error e⟩
    | .ok _ =>
      let db1 := saveDoc db0 doc1
      let ev1 := [⟨Stage.extracting, 20, none⟩]
      match env.extractResult with
      | .error e => ⟨ev1, db1, .error e⟩
      | .ok extracted =>
        let ev2 := ev1 ++ [⟨Stage.classifying, 35, none⟩]
        let domains := DomainClassifier.classify extracted.full_text 2
        let technical_terms := DomainClassifier.extract_technical_terms extracted.full_text 20
        let cpc_hints := DomainClassifier.get_cpc_hints domains
        let ev3 := ev2 ++ [⟨Stage.chunking, 50, none⟩]
        let base_metadata : Dict :=
          [("document_id", .vStr document_id),
           ("project_id", .vStr project_id),
           ("is_primary", .vBool is_primary),
           ("technical_domains", .vStrList domains),
           ("cpc_hints", .vStrList cpc_hints)]
        let section_chunks := LlamaChunker.chunk_sections env.split extracted.sections base_metadata
        let table_chunks := LlamaChunker.chunk_tables extracted.tables base_metadata
        let all_chunks := section_chunks ++ table_chunks
        let ev4 := ev3 ++ [⟨Stage.embedding, 70, none⟩]
        let chunk_texts := all_chunks.map (·.text)
        match PatentEmbedder.generate_embeddings env.model chunk_texts 32 with
        | .error e => ⟨ev4, db1, .error e⟩
        | .ok embeddings =>
          let ev5 := ev4 ++ [⟨Stage.storing, 85, none⟩]
          let pending := (all_chunks.zip embeddings).map (fun ce =>
            ({ document_id := document_id,
               chunk_text := ce.1.text,
               chunk_index := ce.1.chunk_index,
               embedding := ce.2,
               section_type := ce.1.section_type,
               token_count := ce.1.token_count,
               metadata := ce.1.metadata } : StoredChunk Vec))
          let doc2 := { doc1 with
            processing_status := "completed",
            processed_at_set := true,
            metadata := dictMerge doc1.metadata
              [("total_chunks", .vNat all_chunks.length),
               ("technical_domains", .vStrList domains),
               ("technical_terms", .vStrList technical_terms),
               ("cpc_hints", .vStrList cpc_hints),
               ("has_tables", .vBool extracted.has_tables),
               ("embedding_model", .vStr env.model_name),
               ("embedding_dimension", .vNat env.dimension)] }
          match env.commitStore with
          | .error e => ⟨ev5, db1, .error e⟩
          | .ok _ =>
            let db2 := { saveDoc db1 doc2 with chunks := db1.chunks ++ pending }
            let ev6 := ev5 ++ [⟨Stage.complete, 100, none⟩]
            ⟨ev6, db2,
             .ok ⟨document_id, all_chunks.length, domains, extracted.has_tables⟩⟩

/-- `DocumentPreprocessingPipeline.process_document`: the `try` block, and
on any exception the `except` block (`handleFailure`) before the error is
re-raised. -/
def process_document {Vec : Type} (env : PipelineEnv Vec) (document_id project_id : String)
    (is_primary : Bool) (db0 : DbState Vec) : RunOutcome Vec :=
  let t := run_try env document_id project_id is_primary db0
  match t.result with
  | .ok _ => t
  | .error e => handleFailure t.events t.db document_id e

end Pipeline

/-! ## The spec's token-count formula, for comparison with the source's -/

/-- The token count §4.4 of the spec asks for: `round(word_count * 1.33)`,
computed on the exact rational with Python's round-half-to-even.  This
definition follows the spec's words; the source's formula is
`LlamaChunker.estimate_tokens`. -/
def spec_round_tokens (word_count : Nat) : Nat :=
  let q := word_count * 133
  let n := q / 100
  let r := q % 100
  if 50 < r then n + 1
  else if r < 50 then n
  else if n % 2 = 0 then n else n + 1

/-! ## Concrete fixtures for counterexamples and witnesses -/

/-- A splitter that returns the whole text as one node. -/
def idSplit : String → List SplitNode := fun t => [⟨t, "node0"⟩]

/-- One non-empty section. -/
def exSections : List (String × List String) := [("intro", ["hello"])]

/-- One table. -/
def exTables : List TableRec := [⟨"tab one", []⟩]

/-- The combined chunk sequence the pipeline would build from `exSections`
and `exTables` (one section chunk, then one table chunk). -/
def exChunks : List Chunk :=
  LlamaChunker.chunk_sections idSplit exSections [] ++ LlamaChunker.chunk_tables exTables []

/-- The one chunk `chunk_tables exTables []` produces. -/
def exTableChunk : Chunk :=
  { text := "tab one",
    chunk_index := 0,
    section_type := "table",
    metadata := [("section_type", .vStr "table"),
                 ("table_index", .vNat 0),
                 ("table_metadata", .vDict [])],
    token_count := 2 }

/-- A connection is registered for a document when it is in the
document's current set. -/
def ConnectionManager.registered (m : ConnectionManager) (document_id : String)
    (c : Conn) : Prop :=
  ∃ cs, ConnectionManager.lookupConns m document_id = some cs ∧ c ∈ cs

/-- The Subscription Registry invariant: every document id present in the
map has a non-empty connection set. -/
def ConnectionManager.Inv (m : ConnectionManager) : Prop :=
  ∀ d cs, ConnectionManager.lookupConns m d = some cs → cs ≠ []

/-- A manager with two connections (1 and 2) watching `"doc1"`. -/
def exManager : ConnectionManager :=
  ConnectionManager.connect (ConnectionManager.connect ConnectionManager.empty 1 "doc1") 2 "doc1"

/-- A document row as it stands before a run, with an unrelated
upload-time metadata key. -/
def exDoc : Pipeline.Document :=
  { id := "doc1",
    processing_status := "pending",
    processing_error := none,
    processed_at_set := false,
    metadata := [("upload_flag", .vStr "yes")] }

/-- A database holding `exDoc` and no chunks. -/
def exDb : Pipeline.DbState Unit := { documents := [exDoc], chunks := [] }

/-- Extracted content with one section and one table. -/
def exContent : ExtractedContent :=
  { sections := exSections, tables := exTables, full_text := "", has_tables := true }

/-- An environment in which every stage succeeds (embedding vectors are
collapsed to `Unit`, which no claim inspects). -/
def okEnv : Pipeline.PipelineEnv Unit :=
  { commitProcessing := .ok (),
    extractResult := .ok exContent,
    split := idSplit,
    model := fun b => .ok (b.map (fun _ => ())),
    commitStore := .ok (),
    model_name := "AI-Growth-Lab/PatentSBERTa",
    dimension := 768 }

/-- The same environment with the extractor raising `"boom"`. -/
def failEnv : Pipeline.PipelineEnv Unit :=
  { okEnv with extractResult := .error "boom" }

/-! # Theorems -/

/-! ## Dict lemmas -/

theorem dictLookup_dictInsert_ne (m : Dict) (kv : String × MetaValue) (k : String)
    (h : kv.1 ≠ k) : dictLookup (dictInsert m kv) k = dictLookup m k := by
  induction m with
  | nil =>
      have hk : (kv.1 == k) = false := by simpa using h
      simp [dictInsert, dictLookup, List.find?, hk]
  | cons p rest ih =>
      by_cases hp : p.1 == kv.1
      · simp only [dictInsert, hp, if_true]
        simp only [dictLookup, List.find?]
        have hk : (kv.1 == k) = false := by simpa using h
        have hpk : (p.1 == k) = false := by
          have : p.1 = kv.1 := by simpa using hp
          simpa [this] using h
        simp [hk, hpk]
      · simp only [dictInsert, hp, if_false]
        simp only [dictLookup, List.find?] at ih ⊢
        cases hpk : (p.1 == k) <;> simp [hpk, ih]

theorem dictLookup_dictMerge_notMem (a b : Dict) (k : String)
    (h : ∀ kv ∈ b, kv.1 ≠ k) : dictLookup (dictMerge a b) k = dictLookup a k := by
  induction b generalizing a with
  | nil => rfl
  | cons kv rest ih =>
      have hkv : kv.1 ≠ k := h kv (by simp)
      have hrest : ∀ p ∈ rest, p.1 ≠ k := fun p hp => h p (by simp [hp])
      simp only [dictMerge, List.foldl] at ih ⊢
      rw [ih (dictInsert a kv) hrest, dictLookup_dictInsert_ne a kv k hkv]

/-! ## Chunk-index lemmas (C2) -/

theorem chunk_sections_go_map_index (split : String → List SplitNode) (base : Dict) :
    ∀ (sections : List (String × List String)) (k : Nat),
      (LlamaChunker.chunk_sections_go split base sections k).map Chunk.chunk_index
        = List.range' k (LlamaChunker.chunk_sections_go split base sections k).length := by
  intro sections
  induction sections with
  | nil => intro k; simp [LlamaChunker.chunk_sections_go]
  | cons s rest ih =>
      intro k
      obtain ⟨section_name, section_texts⟩ := s
      by_cases he : section_texts = []
      · simpa [LlamaChunker.chunk_sections_go, he] using ih k
      · simp only [LlamaChunker.chunk_sections_go, he, if_false]
        set nodes := split (joinBlank section_texts) with hnodes
        rw [List.map_append, List.length_append, ih (k + nodes.length)]
        have hcs : (nodes.enum.map (fun ln =>
            ({ text := ln.2.text,
               chunk_index := k + ln.1,
               section_type := section_name,
               metadata := dictMerge base
                 [("section_type", .vStr section_name),
                  ("node_id", .vStr ln.2.node_id),
                  ("local_chunk_index", .vNat ln.1),
                  ("total_chunks_in_section", .vNat nodes.length)],
               token_count := LlamaChunker.estimate_tokens ln.2.text } : Chunk))).map
              Chunk.chunk_index = List.range' k nodes.length := by
          rw [List.map_map]
          have : (Chunk.chunk_index ∘ fun ln : Nat × SplitNode =>
              ({ text := ln.2.text,
                 chunk_index := k + ln.1,
                 section_type := section_name,
                 metadata := dictMerge base
                   [("section_type", .vStr section_name),
                    ("node_id", .vStr ln.2.node_id),
                    ("local_chunk_index", .vNat ln.1),
                    ("total_chunks_in_section", .vNat nodes.length)],
                 token_count := LlamaChunker.estimate_tokens ln.2.text } : Chunk))
              = (fun ln : Nat × SplitNode => k + ln.1) := rfl
          rw [this]
          have h2 : (fun ln : Nat × SplitNode => k + ln.1)
              = (fun n => k + n) ∘ Prod.fst := rfl
          rw [h2, ← List.map_map, List.enum_map_fst, ← List.range'_eq_map_range]
        rw [hcs]
        have hlen : (nodes.enum.map (fun ln =>
            ({ text := ln.2.text,
               chunk_index := k + ln.1,
               section_type := section_name,
               metadata := dictMerge base
                 [("section_type", .vStr section_name),
                  ("node_id", .vStr ln.2.node_id),
                  ("local_chunk_index", .vNat ln.1),
                  ("total_chunks_in_section", .vNat nodes.length)],
               token_count := LlamaChunker.estimate_tokens ln.2.text } : Chunk))).length
              = nodes.length := by
          rw [List.length_map, List.enum_length]
        rw [hlen]
        have := List.range'_append k nodes.length
          (LlamaChunker.chunk_sections_go split base rest (k + nodes.length)).length 1
        simp only [Nat.one_mul] at this
        rw [this, Nat.add_comm]

/-- C2 (counterexample): with one non-empty section producing one chunk
and one table, the combined chunk sequence has `chunk_index` values
`[0, 0]` — not the contiguous zero-based globally unique range the claim
states, because `chunk_tables` restarts its counter at 0. -/
theorem c2_counterexample :
    (exChunks.map Chunk.chunk_index) = [0, 0] ∧
    (exChunks.map Chunk.chunk_index) ≠ List.range exChunks.length := by
  constructor
  · rfl
  · decide

/-- C2 (amended): within the section pass, `chunk_index` values form the
contiguous zero-based range `0..s-1` in section-iteration then
local-split order; the table pass restarts its own counter, producing
`0..t-1` in table order; the combined document sequence is the section
chunks followed by the table chunks, so its index sequence is the two
local ranges concatenated (globally unique only when one pass is
empty). -/
theorem c2_amended (split : String → List SplitNode)
    (sections : List (String × List String)) (base : Dict) (tables : List TableRec) :
    (LlamaChunker.chunk_sections split sections base).map Chunk.chunk_index
      = List.range (LlamaChunker.chunk_sections split sections base).length ∧
    (LlamaChunker.chunk_tables tables base).map Chunk.chunk_index
      = List.range tables.length ∧
    (LlamaChunker.chunk_sections split sections base
        ++ LlamaChunker.chunk_tables tables base).map Chunk.chunk_index
      = List.range (LlamaChunker.chunk_sections split sections base).length
        ++ List.range tables.length := by
  have hs : (LlamaChunker.chunk_sections split sections base).map Chunk.chunk_index
      = List.range (LlamaChunker.chunk_sections split sections base).length := by
    have := chunk_sections_go_map_index split base sections 0
    simpa [LlamaChunker.chunk_sections, List.range_eq_range'] using this
  have ht : (LlamaChunker.chunk_tables tables base).map Chunk.chunk_index
      = List.range tables.length := by
    simp only [LlamaChunker.chunk_tables, List.map_map]
    have : (Chunk.chunk_index ∘ fun it : Nat × TableRec =>
        ({ text := it.2.text,
           chunk_index := it.1,
           section_type := "table",
           metadata := dictMerge base
             [("section_type", .vStr "table"),
              ("table_index", .vNat it.1),
              ("table_metadata", .vDict it.2.metadata)],
           token_count := LlamaChunker.estimate_tokens it.2.text } : Chunk))
        = (Prod.fst : Nat × TableRec → Nat) := rfl
    rw [this, List.enum_map_fst]
  exact ⟨hs, ht, by rw [List.map_append, hs, ht]⟩

/-! ## Token-count theorems (C8) -/

theorem token_count_of_mem_chunk_sections_go (split : String → List SplitNode)
    (base : Dict) :
    ∀ (sections : List (String × List String)) (k : Nat) (c : Chunk),
      c ∈ LlamaChunker.chunk_sections_go split base sections k →
      c.token_count = LlamaChunker.estimate_tokens c.text := by
  intro sections
  induction sections with
  | nil => intro k c hc; simp [LlamaChunker.chunk_sections_go] at hc
  | cons s rest ih =>
      intro k c hc
      obtain ⟨section_name, section_texts⟩ := s
      by_cases he : section_texts = []
      · rw [LlamaChunker.chunk_sections_go, if_pos he] at hc
        exact ih k c hc
      · rw [LlamaChunker.chunk_sections_go, if_neg he] at hc
        rcases List.mem_append.mp hc with hmem | hmem
        · rcases List.mem_map.mp hmem with ⟨ln, _, rfl⟩
          rfl
        · exact ih _ c hmem

theorem token_count_of_mem_chunk_tables (tables : List TableRec) (base : Dict)
    (c : Chunk) (hc : c ∈ LlamaChunker.chunk_tables tables base) :
    c.token_count = LlamaChunker.estimate_tokens c.text := by
  rcases List.mem_map.mp hc with ⟨it, _, rfl⟩
  rfl

/-- C8 (counterexample): for the two-word text `"a b"` the source computes
`int(2 * 1.33) = 2`, while the claim's `round(2 * 1.33) = 3`. -/
theorem c8_counterexample :
    LlamaChunker.estimate_tokens "a b" = 2 ∧
    spec_round_tokens (strWords "a b").length = 3 ∧
    LlamaChunker.estimate_tokens "a b" ≠ spec_round_tokens (strWords "a b").length := by
  refine ⟨rfl, rfl, by decide⟩

/-- C8 (amended): every chunk produced from a section split or a table has
`token_count = ⌊word_count * 1.33⌋` (truncation, not rounding), where
`word_count` is the number of whitespace-separated words of the chunk's
text. -/
theorem c8_amended (split : String → List SplitNode)
    (sections : List (String × List String)) (base : Dict) (tables : List TableRec)
    (c : Chunk)
    (hc : c ∈ LlamaChunker.chunk_sections split sections base
        ++ LlamaChunker.chunk_tables tables base) :
    c.token_count = (strWords c.text).length * 133 / 100 := by
  rcases List.mem_append.mp hc with hmem | hmem
  · exact token_count_of_mem_chunk_sections_go split base sections 0 c hmem
  · exact token_count_of_mem_chunk_tables tables base c hmem

/-- C8 witness: the amended theorem applied to the concrete table chunk of
the fixtures (`"tab one"` has 2 words; `⌊2 * 1.33⌋ = 2`). -/
theorem c8_witness :
    exTableChunk.token_count = (strWords exTableChunk.text).length * 133 / 100 := by
  refine c8_amended idSplit exSections [] exTables exTableChunk ?_
  have h : LlamaChunker.chunk_sections idSplit exSections []
      ++ LlamaChunker.chunk_tables exTables []
      = exChunks := rfl
  rw [h]
  have h2 : exChunks = [exChunks.get ⟨0, by decide⟩, exTableChunk] := rfl
  rw [h2]
  exact List.mem_cons_of_mem _ (List.mem_cons_self _ _)

/-! ## Embedder theorems (C4) -/

theorem generate_batch_go_maps {Vec : Type} (f : String → Vec)
    (model : List String → Except String (List Vec)) (batch_size : Nat)
    (hbs : 1 ≤ batch_size) (hm : ∀ b, model b = .ok (b.map f)) :
    ∀ (fuel : Nat) (texts : List String), texts.length ≤ fuel →
      PatentEmbedder.generate_batch_go model batch_size fuel texts = .ok (texts.map f) := by
  intro fuel
  induction fuel with
  | zero =>
      intro texts h
      have : texts = [] := List.length_eq_zero.mp (Nat.le_zero.mp h)
      subst this
      rfl
  | succ n ih =>
      intro texts h
      cases texts with
      | nil => rfl
      | cons t ts =>
          have hdrop : ((t :: ts).drop batch_size).length ≤ n := by
            rw [List.length_drop]
            have h1 : (t :: ts).length ≤ n + 1 := h
            omega
          simp only [PatentEmbedder.generate_batch_go, hm, ih _ hdrop]
          rw [← List.map_append, List.take_append_drop]

/-- C4: for every input list and every batch size ≥ 1 (including one
larger than the input), `generate_embeddings` returns exactly one
embedding per input text with position `i` of the output corresponding to
text `i` of the input, assuming the underlying batch model embeds each
text of a batch in input order (`model b = ok (b.map f)`). -/
theorem generate_embeddings_ordered {Vec : Type} (f : String → Vec)
    (model : List String → Except String (List Vec)) (texts : List String)
    (batch_size : Nat) (hbs : 1 ≤ batch_size)
    (hm : ∀ b, model b = .ok (b.map f)) :
    PatentEmbedder.generate_embeddings model texts batch_size = .ok (texts.map f) := by
  unfold PatentEmbedder.generate_embeddings
  by_cases he : texts = []
  · subst he; rfl
  · rw [if_neg he]
    exact generate_batch_go_maps f model batch_size hbs hm texts.length texts (Nat.le_refl _)

/-- C4 witness: three texts, batch size 2 (and so a final ragged batch),
embedded by string length. -/
theorem generate_embeddings_ordered_witness :
    PatentEmbedder.generate_embeddings
      (fun b => .ok (b.map String.length)) ["a", "bb", "ccc"] 2
      = .ok (["a", "bb", "ccc"].map String.length) :=
  generate_embeddings_ordered String.length
    (fun b => .ok (b.map String.length)) ["a", "bb", "ccc"] 2
    (by decide) (fun _ => rfl)

/-! ## CPC-hint theorems (C9) -/

theorem find?_assoc_of_nodup {α : Type} (l : List (String × α))
    (hnd : (l.map Prod.fst).Nodup) (d : String) (hs : α) :
    (d, hs) ∈ l ↔ l.find? (fun p => p.1 == d) = some (d, hs) := by
  induction l with
  | nil => simp [List.find?]
  | cons p rest ih =>
      obtain ⟨k, v⟩ := p
      simp only [List.map_cons, List.nodup_cons] at hnd
      obtain ⟨hk, hrest⟩ := hnd
      by_cases hkd : k = d
      · subst hkd
        rw [List.find?_cons_of_pos _ (by simp)]
        constructor
        · rintro hmem
          rcases List.mem_cons.mp hmem with heq | hmem'
          · simpa using heq.symm
          · exact absurd (List.mem_map.mpr ⟨(k, hs), hmem', rfl⟩) hk
        · intro heq
          have : v = hs := by simpa using heq
          subst this
          exact List.mem_cons_self _ _
      · rw [List.find?_cons_of_neg _ (by simpa using hkd)]
        rw [← ih hrest]
        constructor
        · intro hmem
          rcases List.mem_cons.mp hmem with heq | hmem'
          · exact absurd (congrArg Prod.fst heq).symm hkd
          · exact hmem'
        · exact fun hmem => List.mem_cons_of_mem _ hmem

theorem mem_cpc_foldl :
    ∀ (l : List String) (acc : List String) (x : String),
      (x ∈ l.foldl
          (fun acc domain =>
            match DomainClassifier.cpc_mapping.find? (fun p => p.1 == domain) with
            | some p => acc ++ p.2
            | none => acc)
          acc)
        ↔ x ∈ acc ∨ ∃ d ∈ l, ∃ p, DomainClassifier.cpc_mapping.find? (fun q => q.1 == d)
            = some p ∧ x ∈ p.2 := by
  intro l
  induction l with
  | nil => simp
  | cons d rest ih =>
      intro acc x
      rcases hf : DomainClassifier.cpc_mapping.find? (fun q => q.1 == d) with _ | p
      · simp only [List.foldl_cons, hf]
        rw [ih]
        constructor
        · rintro (hx | ⟨d', hd', hp⟩)
          · exact Or.inl hx
          · exact Or.inr ⟨d', List.mem_cons_of_mem _ hd', hp⟩
        · rintro (hx | ⟨d', hd', p', hp', hxp⟩)
          · exact Or.inl hx
          · rcases List.mem_cons.mp hd' with rfl | hd''
            · rw [hf] at hp'; cases hp'
            · exact Or.inr ⟨d', hd'', p', hp', hxp⟩
      · simp only [List.foldl_cons, hf]
        rw [ih]
        constructor
        · rintro (hx | ⟨d', hd', hp⟩)
          · rcases List.mem_append.mp hx with hx' | hx'
            · exact Or.inl hx'
            · exact Or.inr ⟨d, List.mem_cons_self _ _, p, hf, hx'⟩
          · exact Or.inr ⟨d', List.mem_cons_of_mem _ hd', hp⟩
        · rintro (hx | ⟨d', hd', p', hp', hxp⟩)
          · exact Or.inl (List.mem_append.mpr (Or.inl hx))
          · rcases List.mem_cons.mp hd' with rfl | hd''
            · rw [hf] at hp'
              cases hp'
              exact Or.inl (List.mem_append.mpr (Or.inr hxp))
            · exact Or.inr ⟨d', hd'', p', hp', hxp⟩

/-- C9: `get_cpc_hints` is a pure function of its argument (so two calls
with the same list return the same result), and membership in its result
is exactly "some input domain maps to this hint in the static
`cpc_mapping` table" — domains absent from the table contribute
nothing. -/
theorem get_cpc_hints_spec (domains : List String) (h : String) :
    h ∈ DomainClassifier.get_cpc_hints domains
      ↔ ∃ d ∈ domains, ∃ hs, (d, hs) ∈ DomainClassifier.cpc_mapping ∧ h ∈ hs := by
  have hnd : (DomainClassifier.cpc_mapping.map Prod.fst).Nodup := by decide
  unfold DomainClassifier.get_cpc_hints
  rw [List.mem_dedup, mem_cpc_foldl]
  simp only [List.not_mem_nil, false_or]
  constructor
  · rintro ⟨d, hd, p, hp, hxp⟩
    have hpd : p.1 = d := by
      have := List.find?_some hp
      simpa using this
    refine ⟨d, hd, p.2, ?_, hxp⟩
    rw [← hpd]
    exact List.mem_of_find?_eq_some hp
  · rintro ⟨d, hd, hs, hmem, hxhs⟩
    exact ⟨d, hd, (d, hs), (find?_assoc_of_nodup _ hnd d hs).mp hmem, hxhs⟩

/-! ## Classifier theorems (C10) -/

theorem score_of_mem_domain_scores (text_lower : String) (min_keywords : Nat)
    (d : String) (n : Nat)
    (hmem : (d, n) ∈ DomainClassifier.domain_scores text_lower min_keywords) :
    DomainClassifier.score_of text_lower d = n ∧ min_keywords ≤ n := by
  have hnd : (DomainClassifier.TECH_DOMAINS.map Prod.fst).Nodup := by decide
  rcases List.mem_filterMap.mp hmem with ⟨dk, hdk, hf⟩
  by_cases hle : min_keywords ≤ DomainClassifier.match_count text_lower dk.2
  · rw [if_pos hle] at hf
    simp only [Option.some.injEq, Prod.mk.injEq] at hf
    obtain ⟨hfst, hsnd⟩ := hf
    have hdk' : (d, dk.2) ∈ DomainClassifier.TECH_DOMAINS := by
      have heq : dk = (d, dk.2) := Prod.ext_iff.mpr ⟨hfst, rfl⟩
      rw [← heq]; exact hdk
    have hfind := (find?_assoc_of_nodup _ hnd d dk.2).mp hdk'
    unfold DomainClassifier.score_of
    rw [hfind]
    exact ⟨hsnd, hsnd ▸ hle⟩
  · rw [if_neg hle] at hf
    cases hf

theorem mem_domain_scores_of_threshold (text_lower : String) (min_keywords : Nat)
    (d : String) (kws : List String)
    (hdk : (d, kws) ∈ DomainClassifier.TECH_DOMAINS)
    (hle : min_keywords ≤ DomainClassifier.match_count text_lower kws) :
    (d, DomainClassifier.match_count text_lower kws)
      ∈ DomainClassifier.domain_scores text_lower min_keywords := by
  exact List.mem_filterMap.mpr ⟨(d, kws), hdk, by simp [hle]⟩

theorem tech_domains_kws_unique (d : String) (kws kws' : List String)
    (h1 : (d, kws) ∈ DomainClassifier.TECH_DOMAINS)
    (h2 : (d, kws') ∈ DomainClassifier.TECH_DOMAINS) : kws = kws' := by
  have hnd : (DomainClassifier.TECH_DOMAINS.map Prod.fst).Nodup := by decide
  have e1 := (find?_assoc_of_nodup _ hnd d kws).mp h1
  have e2 := (find?_assoc_of_nodup _ hnd d kws').mp h2
  rw [e1] at e2
  simpa using e2

/-- C10: `classify` never returns an empty list; when no domain of the
table reaches the `min_keywords` threshold it returns exactly
`['general']`; otherwise its result contains precisely the domains of the
table meeting the threshold, in descending keyword-match-count order. -/
theorem classify_spec (text : String) (min_keywords : Nat) :
    DomainClassifier.classify text min_keywords ≠ [] ∧
    ((∀ d kws, (d, kws) ∈ DomainClassifier.TECH_DOMAINS →
        DomainClassifier.match_count (strLower text) kws < min_keywords) →
      DomainClassifier.classify text min_keywords = ["general"]) ∧
    ((∃ d kws, (d, kws) ∈ DomainClassifier.TECH_DOMAINS ∧
        min_keywords ≤ DomainClassifier.match_count (strLower text) kws) →
      (∀ d kws, (d, kws) ∈ DomainClassifier.TECH_DOMAINS →
        (d ∈ DomainClassifier.classify text min_keywords ↔
          min_keywords ≤ DomainClassifier.match_count (strLower text) kws)) ∧
      (DomainClassifier.classify text min_keywords).Pairwise
        (fun a b => DomainClassifier.score_of (strLower text) b
          ≤ DomainClassifier.score_of (strLower text) a)) := by
  set tl := strLower text with htl
  set scores := DomainClassifier.domain_scores tl min_keywords with hscores
  have hclassify : DomainClassifier.classify text min_keywords =
      (if ((scores.insertionSort (fun a b => b.2 ≤ a.2)).map Prod.fst) = []
        then ["general"]
        else (scores.insertionSort (fun a b => b.2 ≤ a.2)).map Prod.fst) := rfl
  have hmem_sorted : ∀ p : String × Nat,
      p ∈ scores.insertionSort (fun a b => b.2 ≤ a.2) ↔ p ∈ scores := by
    intro p; exact List.mem_insertionSort _
  refine ⟨?_, ?_, ?_⟩
  · rw [hclassify]
    by_cases h : ((scores.insertionSort (fun a b => b.2 ≤ a.2)).map Prod.fst) = []
    · rw [if_pos h]; simp
    · rw [if_neg h]; exact h
  · intro hnone
    have hempty : scores = [] := by
      rw [hscores]
      unfold DomainClassifier.domain_scores
      rw [List.filterMap_eq_nil_iff]
      intro dk hdk
      have := hnone dk.1 dk.2 hdk
      simp only [if_neg (Nat.not_le.mpr this)]
    rw [hclassify, hempty]
    rfl
  · rintro ⟨d0, kws0, hdk0, hle0⟩
    have hne : scores ≠ [] := by
      intro hempty
      have := mem_domain_scores_of_threshold tl min_keywords d0 kws0 hdk0 hle0
      rw [← hscores, hempty] at this
      exact List.not_mem_nil _ this
    have hmapne : ((scores.insertionSort (fun a b => b.2 ≤ a.2)).map Prod.fst) ≠ [] := by
      intro h
      rcases List.exists_mem_of_ne_nil scores hne with ⟨p, hp⟩
      have : p ∈ scores.insertionSort (fun a b => b.2 ≤ a.2) := (hmem_sorted p).mpr hp
      have : Prod.fst p ∈ ((scores.insertionSort (fun a b => b.2 ≤ a.2)).map Prod.fst) :=
        List.mem_map.mpr ⟨p, this, rfl⟩
      rw [h] at this
      exact List.not_mem_nil _ this
    rw [hclassify, if_neg hmapne]
    constructor
    · intro d kws hdk
      constructor
      · intro hd
        rcases List.mem_map.mp hd with ⟨p, hp, hfst⟩
        have hpscores : p ∈ scores := (hmem_sorted p).mp hp
        have hp' : (d, p.2) ∈ scores := by
          have heq : p = (d, p.2) := Prod.ext_iff.mpr ⟨hfst, rfl⟩
          rw [← heq]; exact hpscores
        rcases List.mem_filterMap.mp hp' with ⟨dk, hdkmem, hf⟩
        by_cases hle : min_keywords ≤ DomainClassifier.match_count tl dk.2
        · rw [if_pos hle] at hf
          simp only [Option.some.injEq, Prod.mk.injEq] at hf
          obtain ⟨hfst', hsnd'⟩ := hf
          have hkws : dk.2 = kws := by
            refine tech_domains_kws_unique d dk.2 kws ?_ hdk
            have heq : dk = (d, dk.2) := Prod.ext_iff.mpr ⟨hfst', rfl⟩
            rw [← heq]; exact hdkmem
          rw [← hkws]
          exact hle
        · rw [if_neg hle] at hf; cases hf
      · intro hle
        have hmem := mem_domain_scores_of_threshold tl min_keywords d kws hdk hle
        rw [← hscores] at hmem
        exact List.mem_map.mpr
          ⟨(d, DomainClassifier.match_count tl kws), (hmem_sorted _).mpr hmem, rfl⟩
    · have hsorted : (scores.insertionSort (fun a b => b.2 ≤ a.2)).Pairwise
          (fun a b : String × Nat => b.2 ≤ a.2) :=
        @List.sorted_insertionSort (String × Nat) (fun a b => b.2 ≤ a.2) _
          ⟨fun a b => Nat.le_total b.2 a.2⟩
          ⟨fun _ _ _ h1 h2 => Nat.le_trans h2 h1⟩ scores
      rw [List.pairwise_map]
      refine hsorted.imp_of_mem ?_
      intro p q hp hq hrel
      have hps := score_of_mem_domain_scores tl min_keywords p.1 p.2
        (by have : (p.1, p.2) = p := rfl
            rw [this]; exact (hmem_sorted p).mp hp)
      have hqs := score_of_mem_domain_scores tl min_keywords q.1 q.2
        (by have : (q.1, q.2) = q := rfl
            rw [this]; exact (hmem_sorted q).mp hq)
      rw [hps.1, hqs.1]
      exact hrel


/-! ## Subscription-registry theorems (C6, C7) -/

namespace ConnectionManager

theorem lookupConns_setConns_self (l : List (String × List Conn)) (d : String)
    (v : List Conn) :
    lookupConns ⟨setConns l d v⟩ d = some v := by
  induction l with
  | nil => simp [lookupConns, setConns, List.find?]
  | cons p rest ih =>
      by_cases hp : p.1 == d
      · simp [lookupConns, setConns, hp, List.find?]
      · simp only [setConns, hp, if_false]
        simpa [lookupConns, List.find?, hp] using ih

theorem lookupConns_setConns_ne (l : List (String × List Conn)) (d d' : String)
    (v : List Conn) (h : d' ≠ d) :
    lookupConns ⟨setConns l d v⟩ d' = lookupConns ⟨l⟩ d' := by
  induction l with
  | nil =>
      have hd : (d == d') = false := by simpa using (Ne.symm h)
      simp [lookupConns, setConns, List.find?, hd]
  | cons p rest ih =>
      by_cases hp : p.1 == d
      · have hpd : p.1 = d := by simpa using hp
        have hd : (d == d') = false := by simpa using (Ne.symm h)
        have hpd' : (p.1 == d') = false := by rw [hpd]; exact hd
        simp [lookupConns, setConns, hp, List.find?, hd, hpd']
      · simp only [setConns, hp, if_false]
        by_cases hp' : p.1 == d'
        · simp [lookupConns, List.find?, hp']
        · simpa [lookupConns, List.find?, hp'] using ih

theorem lookupConns_eraseConns_self (l : List (String × List Conn)) (d : String) :
    lookupConns ⟨eraseConns l d⟩ d = none := by
  induction l with
  | nil => simp [lookupConns, eraseConns, List.find?]
  | cons p rest ih =>
      by_cases hp : p.1 == d
      · simp only [eraseConns, List.filter, hp] at ih ⊢
        exact ih
      · simp only [eraseConns, List.filter, hp] at ih ⊢
        simp only [lookupConns, List.find?, hp] at ih ⊢
        exact ih

theorem lookupConns_eraseConns_ne (l : List (String × List Conn)) (d d' : String)
    (h : d' ≠ d) :
    lookupConns ⟨eraseConns l d⟩ d' = lookupConns ⟨l⟩ d' := by
  induction l with
  | nil => simp [lookupConns, eraseConns, List.find?]
  | cons p rest ih =>
      by_cases hp : p.1 == d
      · have hpd : p.1 = d := by simpa using hp
        have hpd' : (p.1 == d') = false := by
          rw [hpd]; simpa using (Ne.symm h)
        simp only [eraseConns, List.filter, hp] at ih ⊢
        simpa [lookupConns, List.find?, hpd'] using ih
      · by_cases hp' : p.1 == d'
        · simp [lookupConns, eraseConns, List.filter, hp, List.find?, hp']
        · simp only [eraseConns, List.filter, hp] at ih ⊢
          simpa [lookupConns, List.find?, hp'] using ih

/-- What one `disconnect` does to every lookup. -/
theorem lookupConns_disconnect (m : ConnectionManager) (c : Conn) (d d' : String) :
    lookupConns (disconnect m c d) d' =
      match lookupConns m d with
      | none => lookupConns m d'
      | some cs =>
          if d' = d then
            (if cs.filter (fun x => x ≠ c) = [] then none
             else some (cs.filter (fun x => x ≠ c)))
          else lookupConns m d' := by
  rcases hl : lookupConns m d with _ | cs
  · rw [disconnect, hl]
  · rw [disconnect, hl]
    dsimp only
    by_cases he : cs.filter (fun x => x ≠ c) = []
    · rw [if_pos he]
      by_cases hd : d' = d
      · subst hd
        rw [if_pos rfl, if_pos he, lookupConns_eraseConns_self]
      · rw [if_neg hd]
        exact lookupConns_eraseConns_ne _ _ _ hd
    · rw [if_neg he]
      by_cases hd : d' = d
      · subst hd
        rw [if_pos rfl, if_neg he, lookupConns_setConns_self]
      · rw [if_neg hd]
        exact lookupConns_setConns_ne _ _ _ _ hd

theorem not_registered_disconnect (m : ConnectionManager) (c : Conn) (d : String) :
    ¬ registered (disconnect m c d) d c := by
  rintro ⟨cs', hcs', hmem⟩
  rw [lookupConns_disconnect] at hcs'
  rcases hl : lookupConns m d with _ | cs
  · rw [hl] at hcs'
    simp at hcs'
  · rw [hl] at hcs'
    dsimp only at hcs'
    rw [if_pos rfl] at hcs'
    by_cases he : cs.filter (fun x => x ≠ c) = []
    · rw [if_pos he] at hcs'; cases hcs'
    · rw [if_neg he] at hcs'
      cases hcs'
      have := List.of_mem_filter hmem
      simp at this

theorem registered_disconnect_sub (m : ConnectionManager) (c' : Conn) (d' d : String)
    (c : Conn) (h : registered (disconnect m c' d') d c) : registered m d c := by
  obtain ⟨cs', hcs', hmem⟩ := h
  rw [lookupConns_disconnect] at hcs'
  rcases hl : lookupConns m d' with _ | cs
  · rw [hl] at hcs'
    dsimp only at hcs'
    exact ⟨cs', hcs', hmem⟩
  · rw [hl] at hcs'
    dsimp only at hcs'
    by_cases hd : d = d'
    · rw [if_pos hd] at hcs'
      by_cases he : cs.filter (fun x => x ≠ c') = []
      · rw [if_pos he] at hcs'; cases hcs'
      · rw [if_neg he] at hcs'
        cases hcs'
        subst hd
        exact ⟨cs, hl, List.mem_of_mem_filter hmem⟩
    · rw [if_neg hd] at hcs'
      exact ⟨cs', hcs', hmem⟩

theorem send_fold_delivered (sendOk : Conn → Bool) (document_id : String) :
    ∀ (l : List Conn) (m : ConnectionManager) (del : List Conn),
      (l.foldl
        (fun (acc : ConnectionManager × List Conn) c =>
          if sendOk c then (acc.1, acc.2 ++ [c])
          else (disconnect acc.1 c document_id, acc.2))
        (m, del)).2 = del ++ l.filter sendOk := by
  intro l
  induction l with
  | nil => intro m del; simp
  | cons c rest ih =>
      intro m del
      by_cases hc : sendOk c
      · simp only [List.foldl_cons, hc, if_true, List.filter_cons, ih]
        simp [hc]
      · simp only [List.foldl_cons, hc, if_false, List.filter_cons, ih]
        simp [hc]

theorem send_fold_preserves_not_registered (sendOk : Conn → Bool) (document_id : String)
    (c : Conn) :
    ∀ (l : List Conn) (m : ConnectionManager) (del : List Conn),
      ¬ registered m document_id c →
      ¬ registered
        ((l.foldl
          (fun (acc : ConnectionManager × List Conn) c =>
            if sendOk c then (acc.1, acc.2 ++ [c])
            else (disconnect acc.1 c document_id, acc.2))
          (m, del)).1) document_id c := by
  intro l
  induction l with
  | nil => intro m del h; exact h
  | cons c' rest ih =>
      intro m del h
      by_cases hc : sendOk c'
      · simp only [List.foldl_cons, hc, if_true]
        exact ih m (del ++ [c']) h
      · simp only [List.foldl_cons, hc, if_false]
        refine ih (disconnect m c' document_id) del ?_
        intro hreg
        exact h (registered_disconnect_sub m c' document_id document_id c hreg)

theorem send_fold_not_registered (sendOk : Conn → Bool) (document_id : String) :
    ∀ (l : List Conn) (m : ConnectionManager) (del : List Conn) (c : Conn),
      c ∈ l → sendOk c = false →
      ¬ registered
        ((l.foldl
          (fun (acc : ConnectionManager × List Conn) c =>
            if sendOk c then (acc.1, acc.2 ++ [c])
            else (disconnect acc.1 c document_id, acc.2))
          (m, del)).1) document_id c := by
  intro l
  induction l with
  | nil => intro m del c hc; cases hc
  | cons c' rest ih =>
      intro m del c hc hfail
      rcases List.mem_cons.mp hc with rfl | hc'
      · simp only [List.foldl_cons, hfail, if_false]
        exact send_fold_preserves_not_registered sendOk document_id c rest
          (disconnect m c document_id) del (not_registered_disconnect m c document_id)
      · by_cases hcs : sendOk c'
        · simp only [List.foldl_cons, hcs, if_true]
          exact ih m (del ++ [c']) c hc' hfail
        · simp only [List.foldl_cons, hcs, if_false]
          exact ih (disconnect m c' document_id) del c hc' hfail

/-- C6: one `send_progress` call attempts delivery to exactly the
connections registered for the document at the moment of the call (the
taken copy), delivers to every connection whose send succeeds even when
other sends fail, and removes each failing connection from the registry
(an implicit leave) instead of raising to the caller. -/
theorem send_progress_isolates_failures (sendOk : Conn → Bool)
    (m : ConnectionManager) (document_id : String) (cs : List Conn)
    (h : lookupConns m document_id = some cs) :
    (send_progress sendOk m document_id).2.1 = cs ∧
    (send_progress sendOk m document_id).2.2 = cs.filter sendOk ∧
    (∀ c ∈ cs, sendOk c = false →
      ¬ registered (send_progress sendOk m document_id).1 document_id c) := by
  refine ⟨?_, ?_, ?_⟩
  · rw [send_progress, h]
  · rw [send_progress, h]
    simpa using send_fold_delivered sendOk document_id cs m []
  · intro c hc hfail
    rw [send_progress, h]
    exact send_fold_not_registered sendOk document_id cs m [] c hc hfail

/-- C6 witness: two connections watch `"doc1"`; connection 1's send
fails, connection 2's succeeds. -/
theorem send_progress_isolates_failures_witness :
    (send_progress (fun c => c == 2) exManager "doc1").2.1 = [1, 2] ∧
    (send_progress (fun c => c == 2) exManager "doc1").2.2
      = [1, 2].filter (fun c => c == 2) ∧
    (∀ c ∈ [1, 2], (fun c : Conn => c == 2) c = false →
      ¬ registered (send_progress (fun c => c == 2) exManager "doc1").1 "doc1" c) :=
  send_progress_isolates_failures (fun c => c == 2) exManager "doc1" [1, 2] rfl

theorem disconnect_preserves_inv (m : ConnectionManager) (ws : Conn) (d : String)
    (hm : Inv m) : Inv (disconnect m ws d) := by
  intro d' cs' hcs'
  rw [lookupConns_disconnect] at hcs'
  rcases hl : lookupConns m d with _ | cs
  · rw [hl] at hcs'
    dsimp only at hcs'
    exact hm d' cs' hcs'
  · rw [hl] at hcs'
    dsimp only at hcs'
    by_cases hd : d' = d
    · rw [if_pos hd] at hcs'
      by_cases he : cs.filter (fun x => x ≠ ws) = []
      · rw [if_pos he] at hcs'; cases hcs'
      · rw [if_neg he] at hcs'
        cases hcs'
        exact he
    · rw [if_neg hd] at hcs'
      exact hm d' cs' hcs'

theorem connect_preserves_inv (m : ConnectionManager) (ws : Conn) (d : String)
    (hm : Inv m) : Inv (connect m ws d) := by
  intro d' cs' hcs'
  by_cases h0 : lookupConns m d = none
  · rw [connect] at hcs'
    rw [if_pos h0] at hcs'
    rw [lookupConns_setConns_self] at hcs'
    dsimp only at hcs'
    by_cases hd : d' = d
    · subst hd
      rw [lookupConns_setConns_self] at hcs'
      cases hcs'
      simp
    · rw [lookupConns_setConns_ne _ _ _ _ hd, lookupConns_setConns_ne _ _ _ _ hd] at hcs'
      exact hm d' cs' hcs'
  · rcases hsome : lookupConns m d with _ | cs
    · exact absurd hsome h0
    · rw [connect] at hcs'
      rw [if_neg h0] at hcs'
      rw [hsome] at hcs'
      dsimp only at hcs'
      by_cases hd : d' = d
      · subst hd
        rw [lookupConns_setConns_self] at hcs'
        cases hcs'
        by_cases hws : ws ∈ cs
        · rw [if_pos hws]
          exact hm _ cs hsome
        · rw [if_neg hws]
          simp
      · rw [lookupConns_setConns_ne _ _ _ _ hd] at hcs'
        exact hm d' cs' hcs'

theorem send_fold_preserves_inv (sendOk : Conn → Bool) (d : String) :
    ∀ (l : List Conn) (m0 : ConnectionManager) (del : List Conn),
      Inv m0 →
      Inv ((l.foldl
        (fun (acc : ConnectionManager × List Conn) c =>
          if sendOk c then (acc.1, acc.2 ++ [c])
          else (disconnect acc.1 c d, acc.2))
        (m0, del)).1) := by
  intro l
  induction l with
  | nil => intro m0 del h0; exact h0
  | cons c rest ih =>
      intro m0 del h0
      by_cases hc : sendOk c
      · simp only [List.foldl_cons, hc, if_true]
        exact ih m0 (del ++ [c]) h0
      · simp only [List.foldl_cons, hc, if_false]
        exact ih (disconnect m0 c d) del (disconnect_preserves_inv m0 c d h0)

/-- C7: every document id present in the registry maps to a non-empty
connection set: the invariant holds for the empty registry and is
preserved by `connect` (join), `disconnect` (leave — which deletes a
document's entry when its set becomes empty), and `send_progress`
(publish, whatever deliveries fail). -/
theorem registry_nonempty_invariant :
    Inv ConnectionManager.empty ∧
    (∀ m ws d, Inv m → Inv (connect m ws d)) ∧
    (∀ m ws d, Inv m → Inv (disconnect m ws d)) ∧
    (∀ sendOk m d, Inv m → Inv (send_progress sendOk m d).1) := by
  refine ⟨?_, connect_preserves_inv, disconnect_preserves_inv, ?_⟩
  · intro d cs h
    simp [lookupConns, ConnectionManager.empty, List.find?] at h
  · intro sendOk m d hm
    rcases hl : lookupConns m d with _ | cs
    · rw [send_progress, hl]
      exact hm
    · rw [send_progress, hl]
      exact send_fold_preserves_inv sendOk d cs m [] hm

end ConnectionManager

/-! ## Pipeline theorems (C1, C3, C5) -/

namespace Pipeline

theorem find?_replace_eq (l : List Document) (document_id : String) (doc d' : Document)
    (h : l.find? (fun x => x.id == document_id) = some doc)
    (hid : d'.id = document_id) :
    (l.map (fun x => if x.id == d'.id then d' else x)).find? (fun x => x.id == document_id)
      = some d' := by
  induction l with
  | nil => simp [List.find?] at h
  | cons x rest ih =>
      by_cases hx : x.id == document_id
      · have h1 : x.id = document_id := by simpa using hx
        have hxtrue : (x.id == d'.id) = true := by simp [h1, hid]
        rw [List.map_cons]
        rw [if_pos hxtrue]
        rw [List.find?_cons_of_pos]
        simp [hid]
      · have hxf : (x.id == document_id) = false := by simpa using hx
        simp only [List.find?, hxf] at h
        have h1 : x.id ≠ document_id := by simpa using hx
        have hxfalse : ¬ ((x.id == d'.id) = true) := by
          simp only [beq_iff_eq, hid]
          exact h1
        rw [List.map_cons]
        rw [if_neg hxfalse]
        simp only [List.find?, hxf]
        exact ih h

theorem queryDoc_saveDoc {Vec : Type} (db : DbState Vec) (document_id : String)
    (doc d' : Document) (h : queryDoc db document_id = some doc)
    (hid : d'.id = document_id) :
    queryDoc (saveDoc db d') document_id = some d' :=
  find?_replace_eq db.documents document_id doc d' h hid

theorem saveDoc_chunks {Vec : Type} (db : DbState Vec) (d : Document) :
    (saveDoc db d).chunks = db.chunks := rfl

theorem handleFailure_events {Vec : Type} (evs : List Event) (db : DbState Vec)
    (document_id e : String) :
    (handleFailure evs db document_id e).events = evs ++ [⟨Stage.failed, 0, some e⟩] := rfl

theorem handleFailure_result {Vec : Type} (evs : List Event) (db : DbState Vec)
    (document_id e : String) :
    (handleFailure evs db document_id e).result = .error e := rfl

theorem id_eq_of_queryDoc {Vec : Type} (db : DbState Vec) (document_id : String)
    (d : Document) (h : queryDoc db document_id = some d) : d.id = document_id := by
  have := List.find?_some h
  simpa using this

/-- The possible outcomes of the `try` block: on success the emitted
events contain exactly one terminal event, `complete` at 100, and the
stored document's metadata is the field-level merge of its previous
metadata with the seven pipeline-derived keys; on an exception no
terminal event has been emitted yet, no chunk row has been committed, and
the queried document row is still present. -/
theorem run_try_shape {Vec : Type} (env : PipelineEnv Vec)
    (document_id project_id : String) (is_primary : Bool) (db0 : DbState Vec)
    (t : RunOutcome Vec) (ht : run_try env document_id project_id is_primary db0 = t) :
    ((∀ s, t.result = .ok s →
        t.events.filter Event.isTerminal = [⟨Stage.complete, 100, none⟩] ∧
        (∀ doc, queryDoc db0 document_id = some doc →
          ∃ d', queryDoc t.db document_id = some d' ∧
            ∃ (tc : Nat) (dom terms hints : List String) (htb : Bool),
              d'.metadata = dictMerge doc.metadata
                [("total_chunks", MetaValue.vNat tc),
                 ("technical_domains", MetaValue.vStrList dom),
                 ("technical_terms", MetaValue.vStrList terms),
                 ("cpc_hints", MetaValue.vStrList hints),
                 ("has_tables", MetaValue.vBool htb),
                 ("embedding_model", MetaValue.vStr env.model_name),
                 ("embedding_dimension", MetaValue.vNat env.dimension)])) ∧
     (∀ e, t.result = .error e →
        t.events.filter Event.isTerminal = [] ∧
        t.db.chunks = db0.chunks ∧
        (∀ doc, queryDoc db0 document_id = some doc →
          ∃ d'', queryDoc t.db document_id = some d''))) := by
  unfold run_try at ht
  rcases hq : queryDoc db0 document_id with _ | doc
  · rw [hq] at ht
    dsimp only at ht
    subst ht
    constructor
    · intro s hs
      simp at hs
    · intro e he
      refine ⟨by dsimp only; decide, rfl, ?_⟩
      intro doc hdoc
      exact Option.noConfusion hdoc
  · rw [hq] at ht
    dsimp only at ht
    have hput : ∀ doc2 : Document, doc2.id = doc.id →
        queryDoc (saveDoc db0 doc2) document_id = some doc2 := fun doc2 hid =>
      queryDoc_saveDoc db0 document_id doc doc2 hq
        (hid.trans (id_eq_of_queryDoc db0 document_id doc hq))
    rcases hcp : env.commitProcessing with e | u
    · rw [hcp] at ht
      dsimp only at ht
      subst ht
      constructor
      · intro s hs
        simp at hs
      · intro e' he'
        refine ⟨by dsimp only; decide, rfl, ?_⟩
        intro doc' hdoc'
        cases hdoc'
        exact ⟨doc, hq⟩
    · rw [hcp] at ht
      dsimp only at ht
      rcases hex : env.extractResult with e | extracted
      · rw [hex] at ht
        dsimp only at ht
        subst ht
        constructor
        · intro s hs
          simp at hs
        · intro e' he'
          refine ⟨by dsimp only; decide, rfl, ?_⟩
          intro doc' hdoc'
          exact ⟨_, hput _ rfl⟩
      · rw [hex] at ht
        dsimp only at ht
        split at ht
        · subst ht
          constructor
          · intro s hs
            simp at hs
          · intro e' he'
            refine ⟨by dsimp only; decide, rfl, ?_⟩
            intro doc' hdoc'
            exact ⟨_, hput _ rfl⟩
        · rcases hcs : env.commitStore with e | u2
          · rw [hcs] at ht
            dsimp only at ht
            subst ht
            constructor
            · intro s hs
              simp at hs
            · intro e' he'
              refine ⟨by dsimp only; decide, rfl, ?_⟩
              intro doc' hdoc'
              exact ⟨_, hput _ rfl⟩
          · rw [hcs] at ht
            dsimp only at ht
            subst ht
            constructor
            · intro s hs
              refine ⟨by dsimp only; decide, ?_⟩
              intro doc' hdoc'
              cases hdoc'
              have hid0 : doc.id = document_id := id_eq_of_queryDoc db0 document_id doc hq
              have h1 := hput { doc with processing_status := "processing" } rfl
              refine ⟨_, queryDoc_saveDoc _ document_id _ _ h1 hid0, _, _, _, _, _, rfl⟩
            · intro e' he'
              simp at he'

theorem process_document_of_ok {Vec : Type} (env : PipelineEnv Vec)
    (document_id project_id : String) (is_primary : Bool) (db0 : DbState Vec)
    (s : RunSuccess) (h : (run_try env document_id project_id is_primary db0).result = .ok s) :
    process_document env document_id project_id is_primary db0
      = run_try env document_id project_id is_primary db0 := by
  simp only [process_document, h]

theorem process_document_of_error {Vec : Type} (env : PipelineEnv Vec)
    (document_id project_id : String) (is_primary : Bool) (db0 : DbState Vec)
    (e : String) (h : (run_try env document_id project_id is_primary db0).result = .error e) :
    process_document env document_id project_id is_primary db0
      = handleFailure (run_try env document_id project_id is_primary db0).events
          (run_try env document_id project_id is_primary db0).db document_id e := by
  simp only [process_document, h]

theorem handleFailure_db_of_some {Vec : Type} (evs : List Event) (db : DbState Vec)
    (document_id e : String) (d'' : Document)
    (h : queryDoc db document_id = some d'') :
    (handleFailure evs db document_id e).db
      = saveDoc db { d'' with processing_status := "failed", processing_error := some e } := by
  simp only [handleFailure, h]

/-- C1: every run emits exactly one terminal progress event: `complete`
with progress 100 when every stage succeeds (the result is `ok`), and
`failed` (with progress 0 and the error message) when any stage raises —
never both, never more than one. -/
theorem process_document_one_terminal {Vec : Type} (env : PipelineEnv Vec)
    (document_id project_id : String) (is_primary : Bool) (db0 : DbState Vec) :
    ((process_document env document_id project_id is_primary db0).events.filter
        Event.isTerminal).length = 1 ∧
    (∀ s, (process_document env document_id project_id is_primary db0).result = .ok s →
      (process_document env document_id project_id is_primary db0).events.filter
          Event.isTerminal = [⟨Stage.complete, 100, none⟩]) ∧
    (∀ e, (process_document env document_id project_id is_primary db0).result = .error e →
      (process_document env document_id project_id is_primary db0).events.filter
          Event.isTerminal = [⟨Stage.failed, 0, some e⟩]) := by
  obtain ⟨hokpart, herrpart⟩ :=
    run_try_shape env document_id project_id is_primary db0 _ rfl
  have main : (∀ s, (process_document env document_id project_id is_primary db0).result
        = .ok s →
      (process_document env document_id project_id is_primary db0).events.filter
          Event.isTerminal = [⟨Stage.complete, 100, none⟩]) ∧
      (∀ e, (process_document env document_id project_id is_primary db0).result = .error e →
      (process_document env document_id project_id is_primary db0).events.filter
          Event.isTerminal = [⟨Stage.failed, 0, some e⟩]) := by
    rcases hres : (run_try env document_id project_id is_primary db0).result with e | s
    · have hpd := process_document_of_error env document_id project_id is_primary db0 e hres
      obtain ⟨hfil, _, _⟩ := herrpart e hres
      constructor
      · intro s hs
        rw [hpd, handleFailure_result] at hs
        cases hs
      · intro e' he'
        rw [hpd, handleFailure_result] at he'
        cases he'
        rw [hpd, handleFailure_events, List.filter_append, hfil]
        rfl
    · have hpd := process_document_of_ok env document_id project_id is_primary db0 s hres
      obtain ⟨hfil, _⟩ := hokpart s hres
      constructor
      · intro s' hs'
        rw [hpd]
        exact hfil
      · intro e' he'
        rw [hpd, hres] at he'
        cases he'
  refine ⟨?_, main⟩
  rcases hres2 : (process_document env document_id project_id is_primary db0).result with e | s
  · rw [main.2 e hres2]
    rfl
  · rw [main.1 s hres2]
    rfl

/-- C3: when a stage of the `try` block raises, the run persists zero
chunk rows, marks the document failed with exactly the raised message,
emits one `failed` event with progress 0 carrying that message, and
re-raises the error to the caller. -/
theorem process_document_failure_contract {Vec : Type} (env : PipelineEnv Vec)
    (document_id project_id : String) (is_primary : Bool) (db0 : DbState Vec)
    (doc : Document) (e : String)
    (hdoc : queryDoc db0 document_id = some doc)
    (hchunks0 : db0.chunks = [])
    (herr : (run_try env document_id project_id is_primary db0).result = .error e) :
    (process_document env document_id project_id is_primary db0).db.chunks = [] ∧
    (∃ d', queryDoc (process_document env document_id project_id is_primary db0).db
          document_id = some d' ∧
        d'.processing_status = "failed" ∧ d'.processing_error = some e) ∧
    (process_document env document_id project_id is_primary db0).events.filter
        Event.isTerminal = [⟨Stage.failed, 0, some e⟩] ∧
    (process_document env document_id project_id is_primary db0).result = .error e := by
  have hpd := process_document_of_error env document_id project_id is_primary db0 e herr
  obtain ⟨_, herrpart⟩ := run_try_shape env document_id project_id is_primary db0 _ rfl
  obtain ⟨hfil, hchq, hquery⟩ := herrpart e herr
  obtain ⟨d'', hd''⟩ := hquery doc hdoc
  have hdb := handleFailure_db_of_some
    (run_try env document_id project_id is_primary db0).events
    (run_try env document_id project_id is_primary db0).db document_id e d'' hd''
  refine ⟨?_, ?_, ?_, ?_⟩
  · rw [hpd, hdb, saveDoc_chunks, hchq, hchunks0]
  · refine ⟨{ d'' with processing_status := "failed", processing_error := some e },
      ?_, rfl, rfl⟩
    rw [hpd, hdb]
    exact queryDoc_saveDoc _ document_id d'' _ hd''
      (id_eq_of_queryDoc _ document_id d'' hd'')
  · rw [hpd, handleFailure_events, List.filter_append, hfil]
    rfl
  · rw [hpd, handleFailure_result]

/-- C3 witness: the extractor raises `"boom"` on a database holding one
pending document and no chunks. -/
theorem process_document_failure_contract_witness :
    (process_document failEnv "doc1" "proj1" false exDb).db.chunks = [] ∧
    (∃ d', queryDoc (process_document failEnv "doc1" "proj1" false exDb).db
          "doc1" = some d' ∧
        d'.processing_status = "failed" ∧ d'.processing_error = some "boom") ∧
    (process_document failEnv "doc1" "proj1" false exDb).events.filter
        Event.isTerminal = [⟨Stage.failed, 0, some "boom"⟩] ∧
    (process_document failEnv "doc1" "proj1" false exDb).result = .error "boom" :=
  process_document_failure_contract failEnv "doc1" "proj1" false exDb exDoc "boom"
    rfl rfl rfl

/-- C5: on successful completion, the document's metadata update is a
field-level merge: every key not among the seven pipeline-derived keys
still maps to its value from before the run. -/
theorem process_document_metadata_merge {Vec : Type} (env : PipelineEnv Vec)
    (document_id project_id : String) (is_primary : Bool) (db0 : DbState Vec)
    (doc : Document) (s : RunSuccess) (k : String)
    (hdoc : queryDoc db0 document_id = some doc)
    (hok : (process_document env document_id project_id is_primary db0).result = .ok s)
    (hk : k ∉ pipeline_metadata_keys) :
    ∃ d', queryDoc (process_document env document_id project_id is_primary db0).db
        document_id = some d' ∧
      dictLookup d'.metadata k = dictLookup doc.metadata k := by
  rcases hres : (run_try env document_id project_id is_primary db0).result with e | s'
  · have hpd := process_document_of_error env document_id project_id is_primary db0 e hres
    rw [hpd, handleFailure_result] at hok
    cases hok
  · have hpd := process_document_of_ok env document_id project_id is_primary db0 s' hres
    obtain ⟨hokpart, _⟩ := run_try_shape env document_id project_id is_primary db0 _ rfl
    obtain ⟨_, hmeta⟩ := hokpart s' hres
    obtain ⟨d', hq', tc, dom, terms, hints, htb, hmetaeq⟩ := hmeta doc hdoc
    refine ⟨d', by rw [hpd]; exact hq', ?_⟩
    rw [hmetaeq]
    apply dictLookup_dictMerge_notMem
    intro kv hkv
    simp only [List.mem_cons, List.not_mem_nil, or_false] at hkv
    rcases hkv with rfl | rfl | rfl | rfl | rfl | rfl | rfl <;>
      (intro hcon; rw [← hcon] at hk; exact hk (by simp [pipeline_metadata_keys]))

/-- C5 witness: a successful run on a document carrying an unrelated
`upload_flag` metadata key; the key's value survives the merge. -/
theorem process_document_metadata_merge_witness :
    ∃ d', queryDoc (process_document okEnv "doc1" "proj1" false exDb).db
        "doc1" = some d' ∧
      dictLookup d'.metadata "upload_flag" = dictLookup exDoc.metadata "upload_flag" :=
  process_document_metadata_merge okEnv "doc1" "proj1" false exDb exDoc
    ⟨"doc1", 2, ["general"], true⟩ "upload_flag" rfl rfl (by decide)

end Pipeline
